import Mathlib

/-!
Shallow embedding of `profile_creator.py` (class `ProfileCreator`): a
profile-creation wizard that asks a fixed list of questions, normalizes
speech transcripts, validates answers per field kind, accumulates a profile
record, and saves it as JSON.

Strings are modelled as `List Char` (`Str`); Python string methods
(`strip`, `lower`, `replace`, `split`, `join`) are implemented below with
the same semantics on ASCII text.
-/

abbrev Str := List Char

/-- Python whitespace (ASCII part), as used by `str.strip` and `str.split()`. -/
def isWs (c : Char) : Bool :=
  c = ' ' || c = '\t' || c = '\n' || c = '\r' || c = '\x0B' || c = '\x0C'

/-- Python `str.strip()`: drop leading and trailing whitespace. -/
def strip (s : Str) : Str :=
  ((s.dropWhile isWs).reverse.dropWhile isWs).reverse

/-- Python `str.lower()` on ASCII letters (`Char.toLower` maps A-Z to a-z). -/
def lowerStr (s : Str) : Str := s.map Char.toLower

/-- `p` is a prefix of `s` (used by `replace` to find occurrences). -/
def hasPfx : Str → Str → Bool
  | [], _ => true
  | _ :: _, [] => false
  | p :: ps, c :: cs => p = c && hasPfx ps cs

/-- `pat` occurs as a contiguous substring of `s`. -/
def containsSub (s pat : Str) : Bool :=
  match s with
  | [] => hasPfx pat []
  | _ :: cs => hasPfx pat s || containsSub cs pat

/-- Python `str.replace(pat, rep)`: replace every non-overlapping occurrence
of `pat`, scanning left to right and continuing after each replacement.
The fuel argument (each step consumes at least one character of `s`, so
`s.length` suffices) keeps the recursion structural. -/
def replaceGo (pat rep : Str) : Str → Nat → Str
  | s, 0 => s
  | [], _ + 1 => []
  | c :: cs, fuel + 1 =>
    if hasPfx pat (c :: cs) then rep ++ replaceGo pat rep (cs.drop (pat.length - 1)) fuel
    else c :: replaceGo pat rep cs fuel

/-- Python `str.replace` (the empty pattern never occurs in this program). -/
def replace (s pat rep : Str) : Str :=
  match pat with
  | [] => s
  | _ :: _ => replaceGo pat rep s s.length

/-- Python `str.split(sep)` for a one-character separator: always returns at
least one (possibly empty) piece. -/
def splitCh (sep : Char) : Str → List Str
  | [] => [[]]
  | c :: cs =>
    if c = sep then [] :: splitCh sep cs
    else
      match splitCh sep cs with
      | [] => [[c]]
      | h :: t => (c :: h) :: t

/-- Python `', '.join(pieces)`. -/
def joinComma : List Str → Str
  | [] => []
  | [p] => p
  | p :: q :: ps => p ++ ',' :: ' ' :: joinComma (q :: ps)

/-- Python `''.join(s.split())`: splitting on whitespace runs and joining
with the empty string removes exactly the whitespace characters. -/
def removeWs (s : Str) : Str := s.filter (fun c => !isWs c)

/-- Python `int(x)` on a string of decimal digits (leading zeros allowed). -/
def strToNat (s : Str) : Nat :=
  s.foldl (fun n c => 10 * n + (c.toNat - 48)) 0

/-- A character of the regex class `[\w\.-]` (ASCII `\w` plus dot and hyphen). -/
def wdhChar (c : Char) : Bool := c.isAlphanum || c = '_' || c = '.' || c = '-'

/-- A character of the regex class `\w` (ASCII). -/
def wChar (c : Char) : Bool := c.isAlphanum || c = '_'

/-- `re.match(r'^[\w\.-]+@[\w\.-]+\.\w+$', s)` as a full-match test: some
position `i` holds `@`, some later position `j` holds `.`, the three regions
around them are non-empty and drawn from the right character classes.
(Python's `$` also matches just before a terminal newline; every string this
regex is applied to has been stripped of trailing whitespace first, so that
case cannot arise here.) -/
def emailMatch (s : Str) : Bool :=
  (List.range s.length).any fun i =>
    (List.range s.length).any fun j =>
      decide (0 < i) && decide (i + 1 < j) && decide (j + 1 < s.length) &&
      decide (s.getD i '?' = '@') && decide (s.getD j '?' = '.') &&
      (s.take i).all wdhChar &&
      ((s.drop (i + 1)).take (j - (i + 1))).all wdhChar &&
      (s.drop (j + 1)).all wChar

/-- `re.match(r'^\d{10}$', w)`: ten digits.  Python's `$` also matches just
before a newline at the very end of the string, and here `w` is the raw
value with hyphens and spaces removed, which can still end in `'\n'`, so
that alternative is kept. -/
def phoneRegex (w : Str) : Bool :=
  (decide (w.length = 10) && w.all Char.isDigit) ||
  (decide (w.length = 11) && decide (w.getLast? = some '\n') && (w.take 10).all Char.isDigit)

/-- `ProfileCreator._validate_input`: reject empty or whitespace-only input,
then dispatch on the field type; unknown field types are always valid. -/
def validateInput (fieldType : String) (value : Str) : Bool :=
  if value = [] then false
  else if strip value = [] then false
  else
    let v := strip value
    match fieldType with
    | "text" => decide (2 ≤ v.length)
    | "number" => v.all Char.isDigit && decide (strToNat v ≤ 99)
    | "email" => emailMatch v
    | "phone" => phoneRegex (replace (replace v ['-'] []) [' '] [])
    | "list" => (splitCh ',' v).all fun item => !decide (strip item = [])
    | _ => true

/-- The age branch of the smart text processing in `get_voice_input`:
lower-case, collect the digit characters; if any digit was found the digits
replace the transcript, otherwise the (lower-cased) transcript is kept. -/
def ageNormalize (s : Str) : Str :=
  let r := lowerStr s
  let nums := r.filter Char.isDigit
  if nums = [] then r else nums

/-- The email branch of the smart text processing in `get_voice_input`,
with the replacements in the source order. -/
def emailNormalize (s : Str) : Str :=
  let r := lowerStr s
  let r := replace r "the rate".data []
  let r := replace r " at ".data ['@']
  let r := replace r "at rate".data ['@']
  let r := replace r " dot ".data ['.']
  let r := replace r "dot".data ['.']
  removeWs r

/-- The skills branch of the smart text processing in `get_voice_input`:
lower-case, turn the spoken separators into commas, then re-split on commas,
strip each item and rejoin with `", "`. -/
def skillsNormalize (s : Str) : Str :=
  let r := lowerStr s
  let r := replace r " and ".data [',', ' ']
  let r := replace r " comma ".data [',', ' ']
  joinComma ((splitCh ',' r).map strip)

/-- The dispatch of the smart text processing on the question prompt. -/
def normalizeTranscript (prompt : String) (transcript : Str) : Str :=
  if containsSub (lowerStr prompt.data) "age".data then ageNormalize transcript
  else if containsSub (lowerStr prompt.data) "email".data then emailNormalize transcript
  else if containsSub (lowerStr prompt.data) "skills".data then skillsNormalize transcript
  else transcript

/-- The profile record built by the wizard (`self.profile` in `__init__`):
every field starts unset (`None`), except `skills` which starts as the
empty list; `age` is stored as an integer after coercion. -/
structure Profile where
  name : Option Str
  age : Option Nat
  email : Option Str
  phone : Option Str
  occupation : Option Str
  skills : List Str
  education : Option Str
  location : Option Str
  created_at : Option Str
deriving DecidableEq, Repr

def initProfile : Profile :=
  { name := none, age := none, email := none, phone := none,
    occupation := none, skills := [], education := none, location := none,
    created_at := none }

/-- Python `int(x)`: surrounding whitespace ignored; all uses here are on
validated digit strings. -/
def pyInt (s : Str) : Nat := strToNat (strip s)

/-- The per-field storage step of `create_profile`: skills answers are
split on commas and each piece stripped, age answers are parsed to an
integer, every other field stores the answer text as is.  (The source
assigns `self.profile[field] = answer` for the remaining fields; the
match enumerates the field names occurring in the question list.) -/
def setField (p : Profile) (field : String) (answer : Str) : Profile :=
  if field = "skills" then { p with skills := (splitCh ',' answer).map strip }
  else if field = "age" then { p with age := some (pyInt answer) }
  else match field with
    | "name" => { p with name := some answer }
    | "email" => { p with email := some answer }
    | "phone" => { p with phone := some answer }
    | "occupation" => { p with occupation := some answer }
    | "education" => { p with education := some answer }
    | "location" => { p with location := some answer }
    | _ => p

/-- `self.questions`: (field, prompt, validation type). -/
def questions : List (String × String × String) :=
  [("name", "What is your full name?", "text"),
   ("age", "What is your age?", "number"),
   ("email", "What is your email address?", "email"),
   ("phone", "What is your phone number?", "phone"),
   ("occupation", "What is your current occupation?", "text"),
   ("skills", "What are your skills? (separate with and)", "list"),
   ("education", "What is your highest education level?", "text"),
   ("location", "Where are you located?", "text")]

/-- The question loop of `create_profile` in text mode, driven by the list
of lines the user will type (each line is stripped by `get_text_input`).
An invalid answer re-asks the same question with the same record; a valid
answer stores the field and moves on.  `none` means the input script ran
out before the questionnaire finished.  The fuel argument (every step
consumes a question or an input line, so their combined count suffices)
keeps the recursion structural. -/
def runQuestionsF : Nat → List (String × String × String) → List Str → Profile →
    Option (Profile × List Str)
  | _, [], inputs, p => some (p, inputs)
  | 0, _ :: _, _, _ => none
  | fuel + 1, (f, q, t) :: qs, inputs, p =>
    match inputs with
    | [] => none
    | line :: rest =>
      let answer := strip line
      if validateInput t answer then runQuestionsF fuel qs rest (setField p f answer)
      else runQuestionsF fuel ((f, q, t) :: qs) rest p

def runQuestions (qs : List (String × String × String)) (inputs : List Str)
    (p : Profile) : Option (Profile × List Str) :=
  runQuestionsF (qs.length + inputs.length) qs inputs p

/-- `create_profile` in text mode: run every question, then stamp
`created_at` (the `datetime.now().isoformat()` value is passed in as
`now`).  The unused remainder of the input script is returned as well. -/
def createProfile (now : Str) (inputs : List Str) : Option (Profile × List Str) :=
  match runQuestions questions inputs initProfile with
  | none => none
  | some (p, rest) => some ({ p with created_at := some now }, rest)

/-- One attempt's outcome at the speech-service boundary, as distinguished
by the handlers in `get_voice_input`: a transcript together with the user's
yes/no confirmation, a listen timeout (`WaitTimeoutError`), unintelligible
audio (`UnknownValueError`), or a service-level error (`RequestError`). -/
inductive VoiceEvent where
  | recognized (transcript : Str) (confirmed : Bool)
  | timeout
  | unintelligible
  | serviceError
deriving DecidableEq, Repr

/-- The retry loop of `get_voice_input`.  `events i` is the outcome of the
i-th microphone attempt, `textAnswer` the line the user would type on
fallback, `fuel` the remaining attempts of the retry budget.  A confirmed
transcript is returned after the prompt-keyed normalization; a timeout or
unintelligible attempt (or an unconfirmed transcript) consumes one retry; a
service error returns the text-mode answer at once; an exhausted budget
falls back to text mode. -/
def voiceGo (prompt : String) (events : Nat → VoiceEvent) (textAnswer : Str) :
    Nat → Nat → Str
  | _, 0 => strip textAnswer
  | i, fuel + 1 =>
    match events i with
    | .recognized tr conf =>
      let r := normalizeTranscript prompt tr
      if conf then r else voiceGo prompt events textAnswer (i + 1) fuel
    | .timeout => voiceGo prompt events textAnswer (i + 1) fuel
    | .unintelligible => voiceGo prompt events textAnswer (i + 1) fuel
    | .serviceError => strip textAnswer

/-- `get_voice_input` with its default retry budget of 3. -/
def getVoiceInput (prompt : String) (events : Nat → VoiceEvent)
    (textAnswer : Str) : Str :=
  voiceGo prompt events textAnswer 0 3

/-- A JSON value of the shapes `json.dump` meets in a profile: the only
array a profile carries is the flat list of skill strings. -/
inductive Json where
  | null
  | num (n : Nat)
  | str (s : Str)
  | strArr (xs : List Str)
deriving DecidableEq, Repr

def optStr : Option Str → Json
  | none => Json.null
  | some s => Json.str s

def optNum : Option Nat → Json
  | none => Json.null
  | some n => Json.num n

/-- The profile as the key/value sequence `json.dump` receives: Python
dicts preserve insertion order, so the keys appear in the order the fields
were created in `__init__`. -/
def profileAssoc (p : Profile) : List (String × Json) :=
  [("name", optStr p.name),
   ("age", optNum p.age),
   ("email", optStr p.email),
   ("phone", optStr p.phone),
   ("occupation", optStr p.occupation),
   ("skills", Json.strArr p.skills),
   ("education", optStr p.education),
   ("location", optStr p.location),
   ("created_at", optStr p.created_at)]

/-- JSON string quoting (`ensure_ascii=False`; the escapes for quotes and
backslashes, the only special characters a profile string can carry). -/
def jsonQuote (s : Str) : Str :=
  '"' :: (s.flatMap fun c =>
    if c = '"' then ['\\', '"'] else if c = '\\' then ['\\', '\\'] else [c]) ++ ['"']

def natDigitsGo : Nat → Nat → Str
  | _, 0 => []
  | 0, _ + 1 => []
  | n, fuel + 1 => natDigitsGo (n / 10) fuel ++ [Char.ofNat (48 + n % 10)]

/-- Decimal rendering of a number, as `json.dump` prints an `int`. -/
def natRepr (n : Nat) : Str :=
  if n = 0 then ['0'] else natDigitsGo n n

def joinCommaNl : List Str → Str
  | [] => []
  | [l] => l
  | l :: l' :: ls => l ++ ',' :: '\n' :: joinCommaNl (l' :: ls)

def renderJson : Json → Nat → Str
  | Json.null, _ => "null".data
  | Json.num n, _ => natRepr n
  | Json.str s, _ => jsonQuote s
  | Json.strArr [], _ => ['\x5b', '\x5d']
  | Json.strArr (x :: xs), indent =>
    let pad := List.replicate (indent + 2) ' '
    '\x5b' :: '\n' ::
      joinCommaNl ((x :: xs).map fun v => pad ++ jsonQuote v) ++
      '\n' :: List.replicate indent ' ' ++ ['\x5d']

/-- `json.dump(self.profile, f, indent=2, ensure_ascii=False)`: the record
as an indented object, one line per field, in insertion order. -/
def renderProfile (p : Profile) : Str :=
  '\x7b' :: '\n' ::
    joinCommaNl ((profileAssoc p).map fun kv =>
      ' ' :: ' ' :: jsonQuote kv.1.data ++ ':' :: ' ' :: renderJson kv.2 2) ++
    '\n' :: ['\x7d']

/-- The file-system state the record store acts on: the set of directories
that exist and the contents of each path. -/
structure FS where
  dirs : List String
  files : String → Option Str

/-- `Path.mkdir(exist_ok=True)`: create the directory unless it exists. -/
def mkdirIdem (dirs : List String) (d : String) : List String :=
  if d ∈ dirs then dirs else d :: dirs

/-- `save_profile`: ensure the `profiles` directory exists, then write the
rendered record to `profiles/<filename>` (default `user_profile.json`),
replacing whatever was there. -/
def saveProfile (fs : FS) (p : Profile) (filename : String) : FS :=
  { dirs := mkdirIdem fs.dirs "profiles",
    files := fun q =>
      if q = "profiles/" ++ filename then some (renderProfile p) else fs.files q }

/-- The hyphen/space stripping the phone validator applies before its
regex: `x.replace('-', '').replace(' ', '')`. -/
def stripPhone (v : Str) : Str := replace (replace v ['-'] []) [' '] []

/-- A character of the class the specification words describe for the email
pattern: word or dot characters only (no hyphen). -/
def wdChar (c : Char) : Bool := c.isAlphanum || c = '_' || c = '.'

/-- The address shape claim C4 describes, read literally: word/dot
characters on each side of a single `@`, with a dot before a final
alphabetic suffix (same positional formulation as `emailMatch`). -/
def emailClaimMatch (s : Str) : Bool :=
  (List.range s.length).any fun i =>
    (List.range s.length).any fun j =>
      decide (0 < i) && decide (i + 1 < j) && decide (j + 1 < s.length) &&
      decide (s.getD i '?' = '@') && decide (s.getD j '?' = '.') &&
      (s.take i).all wdChar &&
      ((s.drop (i + 1)).take (j - (i + 1))).all wdChar &&
      (s.drop (j + 1)).all Char.isAlpha

/-- Declarative reading of the code's email regex: the string splits as
`local ++ "@" ++ domain ++ "." ++ tld` with all three parts non-empty,
`local` and `domain` over word/dot/hyphen characters and `tld` over word
characters. -/
def emailDecomp (s : Str) : Prop :=
  ∃ A B C : Str, s = A ++ '@' :: (B ++ '.' :: C) ∧ A ≠ [] ∧ B ≠ [] ∧ C ≠ [] ∧
    A.all wdhChar = true ∧ B.all wdhChar = true ∧ C.all wChar = true

/-- Every populated field of a profile record is backed by an answer that
passed its question's validator, coerced exactly the way `create_profile`
stores it (`created_at` is not subject to validation). -/
def fieldsValid (p : Profile) : Prop :=
  (∀ v, p.name = some v → validateInput "text" v = true) ∧
  (∀ n, p.age = some n → ∃ a, validateInput "number" a = true ∧ n = pyInt a) ∧
  (∀ v, p.email = some v → validateInput "email" v = true) ∧
  (∀ v, p.phone = some v → validateInput "phone" v = true) ∧
  (∀ v, p.occupation = some v → validateInput "text" v = true) ∧
  (p.skills ≠ [] →
    ∃ a, validateInput "list" a = true ∧ p.skills = (splitCh ',' a).map strip) ∧
  (∀ v, p.education = some v → validateInput "text" v = true) ∧
  (∀ v, p.location = some v → validateInput "text" v = true)

/-! ### Helper lemmas about the string operations -/

theorem toNat_ofNat_valid (n : Nat) (h : n < 55296) : (Char.ofNat n).toNat = n := by
  have hv : n.isValidChar := Or.inl (by omega)
  unfold Char.ofNat
  rw [dif_pos hv]
  unfold Char.ofNatAux Char.toNat
  simp [UInt32.toNat, BitVec.ofNatLt]

theorem toLower_toLower (c : Char) : (Char.toLower c).toLower = Char.toLower c := by
  unfold Char.toLower
  by_cases h : c.toNat ≥ 65 ∧ c.toNat ≤ 90
  · rw [if_pos h]
    have h2 : (Char.ofNat (c.toNat + 32)).toNat = c.toNat + 32 :=
      toNat_ofNat_valid _ (by omega)
    rw [if_neg (by omega)]
  · rw [if_neg h, if_neg h]

theorem toLower_not_digit (c : Char) (h : c.isDigit = false) :
    (Char.toLower c).isDigit = false := by
  unfold Char.toLower
  by_cases hc : c.toNat ≥ 65 ∧ c.toNat ≤ 90
  · rw [if_pos hc]
    have h2 : (Char.ofNat (c.toNat + 32)).toNat = c.toNat + 32 :=
      toNat_ofNat_valid _ (by omega)
    rw [Bool.eq_false_iff]
    intro hd
    unfold Char.isDigit at hd
    have h3 := of_decide_eq_true (Bool.and_elim_right hd)
    have h4 : (Char.ofNat (c.toNat + 32)).val.toNat ≤ 57 :=
      UInt32.toNat_le_of_le (by decide) h3
    have h5 : (Char.ofNat (c.toNat + 32)).val.toNat = c.toNat + 32 := h2
    omega
  · rw [if_neg hc]; exact h

theorem mem_strip {c : Char} {s : Str} (h : c ∈ strip s) : c ∈ s := by
  unfold strip at h
  rw [List.mem_reverse] at h
  have h2 := (List.dropWhile_sublist _).mem h
  rw [List.mem_reverse] at h2
  exact (List.dropWhile_sublist _).mem h2

theorem head?_dropWhile {p : Char → Bool} :
    ∀ {l : Str} {a : Char}, (l.dropWhile p).head? = some a → p a = false := by
  intro l
  induction l with
  | nil => intro a h; simp at h
  | cons c cs ih =>
    intro a h
    rw [List.dropWhile_cons] at h
    by_cases hc : p c = true
    · rw [if_pos hc] at h; exact ih h
    · rw [if_neg hc] at h
      simp at h
      rw [← h]
      simp [Bool.eq_false_iff, hc]

theorem dropWhile_eq_self {p : Char → Bool} {l : Str}
    (h : ∀ a, l.head? = some a → p a = false) : l.dropWhile p = l := by
  cases l with
  | nil => rfl
  | cons c cs => rw [List.dropWhile_cons, if_neg (by simp [h c rfl])]

theorem dropWhile_idem {p : Char → Bool} (l : Str) :
    (l.dropWhile p).dropWhile p = l.dropWhile p := by
  apply dropWhile_eq_self
  intro a h
  exact head?_dropWhile h

theorem head?_eq_of_append {l r : Str} {a : Char} (h : l.head? = some a) :
    (l ++ r).head? = some a := by
  cases l with
  | nil => simp at h
  | cons c cs => simpa using h

/-- `strip s` splits off from `dropWhile isWs s` exactly the trailing
whitespace, so `dropWhile isWs s` is `strip s` followed by a remainder. -/
theorem strip_append_rest (s : Str) :
    s.dropWhile isWs = strip s ++ ((s.dropWhile isWs).reverse.takeWhile isWs).reverse := by
  set A := s.dropWhile isWs with hA
  have h1 : A.reverse.takeWhile isWs ++ A.reverse.dropWhile isWs = A.reverse :=
    List.takeWhile_append_dropWhile isWs A.reverse
  calc A = A.reverse.reverse := (List.reverse_reverse A).symm
    _ = (A.reverse.takeWhile isWs ++ A.reverse.dropWhile isWs).reverse := by rw [h1]
    _ = (A.reverse.dropWhile isWs).reverse ++ (A.reverse.takeWhile isWs).reverse := by
        rw [List.reverse_append]
    _ = strip s ++ (A.reverse.takeWhile isWs).reverse := rfl

/-- `strip` removes nothing from an already stripped string: its first
character is the first character of `dropWhile isWs s`, hence not
whitespace, and its reverse is a `dropWhile isWs` result, hence its last
character is not whitespace either. -/
theorem strip_idem (s : Str) : strip (strip s) = strip s := by
  have htrev : (strip s).reverse = (s.dropWhile isWs).reverse.dropWhile isWs :=
    List.reverse_reverse _
  have hstepA : (strip s).dropWhile isWs = strip s := by
    apply dropWhile_eq_self
    intro a hhead
    have hA : (s.dropWhile isWs).head? = some a := by
      rw [strip_append_rest s]
      exact head?_eq_of_append hhead
    exact head?_dropWhile hA
  have hstepB : (strip s).reverse.dropWhile isWs = (strip s).reverse := by
    rw [htrev]; exact dropWhile_idem _
  calc strip (strip s)
      = (((strip s).dropWhile isWs).reverse.dropWhile isWs).reverse := rfl
    _ = ((strip s).reverse.dropWhile isWs).reverse := by rw [hstepA]
    _ = (strip s).reverse.reverse := by rw [hstepB]
    _ = strip s := List.reverse_reverse _

theorem strip_cons_ws {c : Char} (hc : isWs c = true) (l : Str) :
    strip (c :: l) = strip l := by
  unfold strip
  rw [List.dropWhile_cons, if_pos hc]

theorem mem_replaceGo {pat rep : Str} {c : Char} :
    ∀ (fuel : Nat) (s : Str), c ∈ replaceGo pat rep s fuel → c ∈ s ∨ c ∈ rep := by
  intro fuel
  induction fuel with
  | zero => intro s h; rw [replaceGo] at h; exact Or.inl h
  | succ n ih =>
    intro s h
    cases s with
    | nil => rw [replaceGo] at h; cases h
    | cons x cs =>
      rw [replaceGo] at h
      by_cases hp : hasPfx pat (x :: cs) = true
      · rw [if_pos hp] at h
        rcases List.mem_append.mp h with h1 | h1
        · exact Or.inr h1
        · rcases ih _ h1 with h2 | h2
          · exact Or.inl (List.mem_cons_of_mem x (List.mem_of_mem_drop h2))
          · exact Or.inr h2
      · rw [if_neg hp] at h
        rcases List.mem_cons.mp h with h1 | h1
        · exact Or.inl (h1 ▸ List.mem_cons_self x cs)
        · rcases ih _ h1 with h2 | h2
          · exact Or.inl (List.mem_cons_of_mem x h2)
          · exact Or.inr h2

theorem mem_replace {s pat rep : Str} {c : Char} (h : c ∈ replace s pat rep) :
    c ∈ s ∨ c ∈ rep := by
  unfold replace at h
  cases pat with
  | nil => exact Or.inl h
  | cons p ps => exact mem_replaceGo _ _ h

theorem replaceGo_eq_self {pat rep : Str} :
    ∀ (fuel : Nat) (s : Str), containsSub s pat = false → replaceGo pat rep s fuel = s := by
  intro fuel
  induction fuel with
  | zero => intro s _; rw [replaceGo]
  | succ n ih =>
    intro s h
    cases s with
    | nil => rw [replaceGo]
    | cons x cs =>
      rw [containsSub, Bool.or_eq_false_iff] at h
      rw [replaceGo, if_neg (by simp [h.1]), ih _ h.2]

theorem replace_eq_self {s pat rep : Str} (h : containsSub s pat = false) :
    replace s pat rep = s := by
  unfold replace
  cases pat with
  | nil => rfl
  | cons p ps => exact replaceGo_eq_self _ _ h

theorem splitCh_ne_nil (sep : Char) (l : Str) : splitCh sep l ≠ [] := by
  cases l with
  | nil => simp [splitCh]
  | cons c cs =>
    rw [splitCh]
    by_cases hc : c = sep
    · simp [hc]
    · rw [if_neg hc]
      cases h : splitCh sep cs <;> simp

theorem not_mem_of_mem_splitCh {sep : Char} :
    ∀ {l piece : Str}, piece ∈ splitCh sep l → sep ∉ piece := by
  intro l
  induction l with
  | nil =>
    intro piece h
    rw [splitCh] at h
    simp at h
    simp [h]
  | cons c cs ih =>
    intro piece h
    rw [splitCh] at h
    by_cases hc : c = sep
    · rw [if_pos hc] at h
      rcases List.mem_cons.mp h with h1 | h1
      · simp [h1]
      · exact ih h1
    · rw [if_neg hc] at h
      cases hs : splitCh sep cs with
      | nil => exact absurd hs (splitCh_ne_nil sep cs)
      | cons hd tl =>
        rw [hs] at h
        rcases List.mem_cons.mp h with h1 | h1
        · subst h1
          intro hmem
          rcases List.mem_cons.mp hmem with h2 | h2
          · exact hc h2.symm
          · exact ih (hs ▸ List.mem_cons_self hd tl) h2
        · exact ih (hs ▸ List.mem_cons_of_mem hd h1)

theorem mem_of_mem_splitCh {sep c : Char} :
    ∀ {l piece : Str}, piece ∈ splitCh sep l → c ∈ piece → c ∈ l := by
  intro l
  induction l with
  | nil =>
    intro piece h hc
    rw [splitCh] at h
    simp at h
    subst h
    cases hc
  | cons x cs ih =>
    intro piece h hc
    rw [splitCh] at h
    by_cases hx : x = sep
    · rw [if_pos hx] at h
      rcases List.mem_cons.mp h with h1 | h1
      · subst h1; cases hc
      · exact List.mem_cons_of_mem x (ih h1 hc)
    · rw [if_neg hx] at h
      cases hs : splitCh sep cs with
      | nil => exact absurd hs (splitCh_ne_nil sep cs)
      | cons hd tl =>
        rw [hs] at h
        have hhd : hd ∈ splitCh sep cs := by rw [hs]; exact List.mem_cons_self hd tl
        rcases List.mem_cons.mp h with h1 | h1
        · subst h1
          rcases List.mem_cons.mp hc with h2 | h2
          · subst h2; exact List.mem_cons_self _ _
          · exact List.mem_cons_of_mem x (ih hhd h2)
        · have h1' : piece ∈ splitCh sep cs := by
            rw [hs]; exact List.mem_cons_of_mem hd h1
          exact List.mem_cons_of_mem x (ih h1' hc)

theorem splitCh_of_not_mem {sep : Char} : ∀ {l : Str}, sep ∉ l → splitCh sep l = [l] := by
  intro l
  induction l with
  | nil => intro _; rfl
  | cons c cs ih =>
    intro h
    have hc : ¬ c = sep := by
      intro hc; apply h; rw [hc]; exact List.mem_cons_self sep cs
    rw [splitCh, if_neg hc, ih (fun hm => h (List.mem_cons_of_mem c hm))]

theorem splitCh_append_sep {sep : Char} :
    ∀ {a r : Str}, sep ∉ a → splitCh sep (a ++ sep :: r) = a :: splitCh sep r := by
  intro a
  induction a with
  | nil => intro r _; simp [splitCh]
  | cons x a' ih =>
    intro r h
    have hx : ¬ x = sep := by
      intro hx; apply h; rw [hx]; exact List.mem_cons_self sep a'
    rw [List.cons_append, splitCh, if_neg hx,
      ih (fun hm => h (List.mem_cons_of_mem x hm))]

theorem mem_joinComma {c : Char} :
    ∀ {ps : List Str}, c ∈ joinComma ps → (∃ p ∈ ps, c ∈ p) ∨ c = ',' ∨ c = ' ' := by
  intro ps
  induction ps with
  | nil => intro h; rw [joinComma] at h; cases h
  | cons p ps ih =>
    intro h
    cases ps with
    | nil =>
      rw [joinComma] at h
      exact Or.inl ⟨p, List.mem_cons_self p [], h⟩
    | cons q ps' =>
      rw [joinComma] at h
      rcases List.mem_append.mp h with h1 | h1
      · exact Or.inl ⟨p, List.mem_cons_self p _, h1⟩
      · rcases List.mem_cons.mp h1 with h2 | h2
        · exact Or.inr (Or.inl h2)
        · rcases List.mem_cons.mp h2 with h3 | h3
          · exact Or.inr (Or.inr h3)
          · rcases ih h3 with ⟨p', hp', hc'⟩ | h4
            · exact Or.inl ⟨p', List.mem_cons_of_mem p hp', hc'⟩
            · exact Or.inr h4

/-- Splitting a canonical `", "`-joined list of comma-free pieces on commas
recovers the pieces, the later ones with the joining space still in front. -/
theorem splitCh_joinComma :
    ∀ (ps : List Str) (p₀ : Str), (∀ p ∈ p₀ :: ps, (',' : Char) ∉ p) →
      splitCh ',' (joinComma (p₀ :: ps)) = p₀ :: ps.map (fun p => ' ' :: p) := by
  intro ps
  induction ps with
  | nil =>
    intro p₀ h
    rw [joinComma, splitCh_of_not_mem (h p₀ (List.mem_cons_self p₀ []))]
    rfl
  | cons q ps' ih =>
    intro p₀ h
    rw [joinComma, splitCh_append_sep (h p₀ (List.mem_cons_self p₀ _))]
    have h2 : splitCh ',' (' ' :: joinComma (q :: ps')) =
        match splitCh ',' (joinComma (q :: ps')) with
        | [] => [[' ']]
        | hd :: tl => ((' ' :: hd) :: tl : List Str) := by
      rw [splitCh, if_neg (by decide)]
    rw [h2, ih q (fun p hp => h p (List.mem_cons_of_mem p₀ hp))]
    rfl

theorem validateInput_number_eq (v : Str) : validateInput "number" v =
    if v = [] then false else if strip v = [] then false
    else ((strip v).all Char.isDigit && decide (strToNat (strip v) ≤ 99)) := rfl

theorem validateInput_text_eq (v : Str) : validateInput "text" v =
    if v = [] then false else if strip v = [] then false
    else decide (2 ≤ (strip v).length) := rfl

theorem validateInput_email_eq (v : Str) : validateInput "email" v =
    if v = [] then false else if strip v = [] then false
    else emailMatch (strip v) := rfl

theorem validateInput_phone_eq (v : Str) : validateInput "phone" v =
    if v = [] then false else if strip v = [] then false
    else phoneRegex (replace (replace (strip v) ['-'] []) [' '] []) := rfl

theorem validateInput_list_eq (v : Str) : validateInput "list" v =
    if v = [] then false else if strip v = [] then false
    else (splitCh ',' (strip v)).all fun item => !decide (strip item = []) := rfl

theorem not_digit_of_mem_lowerStr {s : Str} (h : s.all (fun c => !c.isDigit) = true)
    {c : Char} (hc : c ∈ lowerStr s) : c.isDigit = false := by
  rcases List.mem_map.mp hc with ⟨c₀, hc₀, rfl⟩
  have h₀ := List.all_eq_true.mp h c₀ hc₀
  exact toLower_not_digit c₀ (by simpa using h₀)

/-- **C1 (counterexample).** On the digit-free transcript
"I am twenty five years old" the age normalizer does not return the empty
string: it returns the lower-cased transcript unchanged. -/
theorem c1_age_normalizer_counterexample :
    ageNormalize "I am twenty five years old".data
      = "i am twenty five years old".data ∧
    ageNormalize "I am twenty five years old".data ≠ ([] : Str) := by
  constructor
  · decide
  · decide

/-- **C1 (amended).** For every voice transcript answering the age question
that contains no digit characters, the age normalizer returns the
lower-cased transcript unchanged (not the empty string), and that output
still fails number validation, forcing a retry. -/
theorem c1_age_normalizer_amended (s : Str) (h : s.all (fun c => !c.isDigit) = true) :
    ageNormalize s = lowerStr s ∧ validateInput "number" (ageNormalize s) = false := by
  have hfilter : (lowerStr s).filter Char.isDigit = [] :=
    List.filter_eq_nil_iff.mpr fun a ha => by
      simp [not_digit_of_mem_lowerStr h ha]
  have hage : ageNormalize s = lowerStr s := by
    show (if (lowerStr s).filter Char.isDigit = [] then lowerStr s
      else (lowerStr s).filter Char.isDigit) = lowerStr s
    rw [hfilter]
    simp
  refine ⟨hage, ?_⟩
  rw [hage, validateInput_number_eq]
  by_cases h1 : lowerStr s = []
  · rw [if_pos h1]
  · rw [if_neg h1]
    by_cases h2 : strip (lowerStr s) = []
    · rw [if_pos h2]
    · rw [if_neg h2]
      cases hv : strip (lowerStr s) with
      | nil => exact absurd hv h2
      | cons c cs =>
        have hcmem : c ∈ lowerStr s :=
          mem_strip (by rw [hv]; exact List.mem_cons_self _ _)
        simp [hv, not_digit_of_mem_lowerStr h hcmem]

/-- Witness for C1 at the transcript "I am twenty five years old". -/
theorem c1_age_normalizer_amended_witness :
    ageNormalize "I am twenty five years old".data
        = lowerStr "I am twenty five years old".data ∧
    validateInput "number" (ageNormalize "I am twenty five years old".data) = false :=
  c1_age_normalizer_amended "I am twenty five years old".data (by decide)

/-- **C5 (code bug).** The source replaces the bare `" at "` before
`"at rate"` (lines 89-90), so on a transcript containing "at rate" the
`" at "` rule fires first and leaves a spurious "rate" in the produced
address, instead of the "john@example.com" the ordering note promises. -/
theorem c5_email_replacement_order_eval :
    emailNormalize "john at rate example dot com".data
        = "john@rateexample.com".data ∧
    emailNormalize "john at rate example dot com".data
        ≠ "john@example.com".data := by
  constructor
  · decide
  · decide

/-- **C6 (confirmed).** `validate('number', x)` is true iff the trimmed
input is non-empty, consists only of digit characters, and its integer
value lies in [0, 99]; in particular "007" is valid (and reads as 7),
while "100" and "12a" are invalid. -/
theorem c6_validate_number :
    (∀ x : Str, validateInput "number" x = true ↔
      (strip x ≠ [] ∧ (strip x).all Char.isDigit = true ∧ strToNat (strip x) ≤ 99)) ∧
    validateInput "number" "007".data = true ∧ strToNat (strip "007".data) = 7 ∧
    validateInput "number" "100".data = false ∧
    validateInput "number" "12a".data = false := by
  refine ⟨fun x => ?_, by decide, by decide, by decide, by decide⟩
  rw [validateInput_number_eq]
  by_cases h1 : x = []
  · subst h1
    have : strip ([] : Str) = [] := rfl
    simp [this]
  · rw [if_neg h1]
    by_cases h2 : strip x = []
    · rw [if_pos h2]
      simp [h2]
    · rw [if_neg h2]
      simp [h2]

/-- **C8 (confirmed).** In voice mode a service-level error from the speech
backend makes the current question fall back to text input at once, for any
remaining retry budget and regardless of what later attempts would have
produced; a recognition timeout or unintelligible audio instead consumes
exactly one retry and continues. -/
theorem c8_service_error_fallback :
    (∀ (prompt : String) (events : Nat → VoiceEvent) (textAnswer : Str) (i fuel : Nat),
      events i = VoiceEvent.serviceError →
        voiceGo prompt events textAnswer i (fuel + 1) = strip textAnswer) ∧
    (∀ (prompt : String) (events : Nat → VoiceEvent) (textAnswer : Str) (i fuel : Nat),
      events i = VoiceEvent.timeout →
        voiceGo prompt events textAnswer i (fuel + 1) =
          voiceGo prompt events textAnswer (i + 1) fuel) ∧
    (∀ (prompt : String) (events : Nat → VoiceEvent) (textAnswer : Str) (i fuel : Nat),
      events i = VoiceEvent.unintelligible →
        voiceGo prompt events textAnswer i (fuel + 1) =
          voiceGo prompt events textAnswer (i + 1) fuel) := by
  refine ⟨fun prompt events t i fuel h => ?_, fun prompt events t i fuel h => ?_,
    fun prompt events t i fuel h => ?_⟩ <;> rw [voiceGo, h]

/-- Witness for C8: a first-attempt service error returns the (stripped)
typed answer with the full budget of 3 attempts remaining. -/
theorem c8_service_error_fallback_witness :
    voiceGo "What is your age?" (fun _ => VoiceEvent.serviceError) " 42 ".data 0 3
      = strip " 42 ".data :=
  c8_service_error_fallback.1 "What is your age?" (fun _ => VoiceEvent.serviceError)
    " 42 ".data 0 2 rfl

/-- **C9 (confirmed).** `save_profile` ensures the `profiles` directory
exists (creating it only when absent), writes the rendered record to the
fixed path `profiles/user_profile.json`, unconditionally replacing any
previous content there and touching no other path, and the rendered record
lists the fields in their insertion order. -/
theorem c9_save_profile :
    ∀ (fs : FS) (p : Profile),
      "profiles" ∈ (saveProfile fs p "user_profile.json").dirs ∧
      ("profiles" ∈ fs.dirs → (saveProfile fs p "user_profile.json").dirs = fs.dirs) ∧
      (saveProfile fs p "user_profile.json").files "profiles/user_profile.json"
        = some (renderProfile p) ∧
      (∀ q : String, q ≠ "profiles/user_profile.json" →
        (saveProfile fs p "user_profile.json").files q = fs.files q) ∧
      (profileAssoc p).map Prod.fst =
        ["name", "age", "email", "phone", "occupation", "skills",
         "education", "location", "created_at"] := by
  intro fs p
  refine ⟨?_, ?_, ?_, ?_, rfl⟩
  · show "profiles" ∈ mkdirIdem fs.dirs "profiles"
    unfold mkdirIdem
    by_cases h : "profiles" ∈ fs.dirs
    · rwa [if_pos h]
    · rw [if_neg h]; exact List.mem_cons_self _ _
  · intro h
    show mkdirIdem fs.dirs "profiles" = fs.dirs
    unfold mkdirIdem
    rw [if_pos h]
  · show (if "profiles/user_profile.json" = "profiles/" ++ "user_profile.json"
      then some (renderProfile p) else fs.files "profiles/user_profile.json")
      = some (renderProfile p)
    rw [if_pos (by decide)]
  · intro q hq
    show (if q = "profiles/" ++ "user_profile.json" then some (renderProfile p)
      else fs.files q) = fs.files q
    have hpath : ("profiles/" ++ "user_profile.json" : String) = "profiles/user_profile.json" := by
      decide
    rw [hpath, if_neg hq]

/-- Witness for C9: saving into a file system that already has the
directory and a stale file keeps the directory list unchanged and
overwrites the stale content. -/
theorem c9_save_profile_witness :
    (saveProfile ⟨["profiles"], fun _ => some "stale".data⟩ initProfile
        "user_profile.json").dirs = ["profiles"] ∧
    (saveProfile ⟨["profiles"], fun _ => some "stale".data⟩ initProfile
        "user_profile.json").files "profiles/user_profile.json"
      = some (renderProfile initProfile) ∧
    (saveProfile ⟨["profiles"], fun _ => some "stale".data⟩ initProfile
        "user_profile.json").files "elsewhere" = some "stale".data :=
  ⟨(c9_save_profile ⟨["profiles"], fun _ => some "stale".data⟩ initProfile).2.1
      (List.mem_cons_self _ _),
   (c9_save_profile ⟨["profiles"], fun _ => some "stale".data⟩ initProfile).2.2.1,
   (c9_save_profile ⟨["profiles"], fun _ => some "stale".data⟩ initProfile).2.2.2.1
      "elsewhere" (by decide)⟩

/-- **C10 (confirmed).** A comma-free answer to the skills (list) question
is valid exactly when its trimmed form is non-empty, and the wizard stores
it as the one-element list holding its trimmed text. -/
theorem c10_comma_free_list (a : Str) (p : Profile) (h : (',' : Char) ∉ a) :
    (validateInput "list" a = true ↔ strip a ≠ []) ∧
    (setField p "skills" a).skills = [strip a] := by
  constructor
  · rw [validateInput_list_eq]
    by_cases h1 : a = []
    · subst h1
      have hs : strip ([] : Str) = [] := rfl
      simp [hs]
    · rw [if_neg h1]
      by_cases h2 : strip a = []
      · rw [if_pos h2]
        simp [h2]
      · rw [if_neg h2]
        have hnm : (',' : Char) ∉ strip a := fun hc => h (mem_strip hc)
        rw [splitCh_of_not_mem hnm]
        simp [strip_idem, h2]
  · show (splitCh ',' a).map strip = [strip a]
    rw [splitCh_of_not_mem h]
    rfl

/-- Witness for C10 at the answer "python". -/
theorem c10_comma_free_list_witness :
    (validateInput "list" "python".data = true ↔ strip "python".data ≠ []) ∧
    (setField initProfile "skills" "python".data).skills = [strip "python".data] :=
  c10_comma_free_list "python".data initProfile (by decide)

/-! ### Wizard lemmas -/

theorem setField_created_at (p : Profile) (f : String) (a : Str) :
    (setField p f a).created_at = p.created_at := by
  unfold setField
  by_cases h1 : f = "skills"
  · rw [if_pos h1]
  · rw [if_neg h1]
    by_cases h2 : f = "age"
    · rw [if_pos h2]
    · rw [if_neg h2]
      split <;> rfl

theorem setField_phone_of_ne (p : Profile) (f : String) (a : Str) (h : f ≠ "phone") :
    (setField p f a).phone = p.phone := by
  unfold setField
  by_cases h1 : f = "skills"
  · rw [if_pos h1]
  · rw [if_neg h1]
    by_cases h2 : f = "age"
    · rw [if_pos h2]
    · rw [if_neg h2]
      split
      · rfl
      · rfl
      · exact absurd rfl h
      · rfl
      · rfl
      · rfl
      · rfl

/-- Any property of the record that every validated storage step preserves
is carried from the initial record to the final one. -/
theorem runQuestionsF_invariant (I : Profile → Prop) :
    ∀ (fuel : Nat) (qs : List (String × String × String)) (inputs : List Str)
      (p p' : Profile) (rest : List Str),
      (∀ (p₀ : Profile) (f q t : String) (line : Str), (f, q, t) ∈ qs →
        line ∈ inputs → validateInput t (strip line) = true →
        I p₀ → I (setField p₀ f (strip line))) →
      runQuestionsF fuel qs inputs p = some (p', rest) → I p → I p' := by
  intro fuel
  induction fuel with
  | zero =>
    intro qs inputs p p' rest hstep hrun hI
    cases qs with
    | nil =>
      rw [runQuestionsF] at hrun
      obtain ⟨rfl, rfl⟩ : p = p' ∧ inputs = rest := by
        constructor <;> [exact congrArg Prod.fst (Option.some.inj hrun);
          exact congrArg Prod.snd (Option.some.inj hrun)]
      exact hI
    | cons q qs' =>
      rw [runQuestionsF] at hrun
      cases hrun
  | succ n ih =>
    intro qs inputs p p' rest hstep hrun hI
    cases qs with
    | nil =>
      rw [runQuestionsF] at hrun
      obtain ⟨rfl, rfl⟩ : p = p' ∧ inputs = rest := by
        constructor <;> [exact congrArg Prod.fst (Option.some.inj hrun);
          exact congrArg Prod.snd (Option.some.inj hrun)]
      exact hI
    | cons hd qs' =>
      obtain ⟨f, qq, t⟩ := hd
      cases inputs with
      | nil =>
        rw [runQuestionsF] at hrun
        cases hrun
      | cons line rest' =>
        rw [runQuestionsF] at hrun
        by_cases hv : validateInput t (strip line) = true
        · rw [if_pos hv] at hrun
          refine ih qs' rest' (setField p f (strip line)) p' rest ?_ hrun ?_
          · intro p₀ f' q' t' line' hq' hl' hval hI₀
            exact hstep p₀ f' q' t' line' (List.mem_cons_of_mem _ hq')
              (List.mem_cons_of_mem _ hl') hval hI₀
          · exact hstep p f qq t line (List.mem_cons_self _ _)
              (List.mem_cons_self _ _) hv hI
        · rw [if_neg hv] at hrun
          refine ih ((f, qq, t) :: qs') rest' p p' rest ?_ hrun hI
          intro p₀ f' q' t' line' hq' hl' hval hI₀
          exact hstep p₀ f' q' t' line' hq' (List.mem_cons_of_mem _ hl') hval hI₀

theorem fieldsValid_init : fieldsValid initProfile := by
  refine ⟨?_, ?_, ?_, ?_, ?_, ?_, ?_, ?_⟩ <;> intro h <;> simp [initProfile] at *

/-- A validated storage step keeps every populated field backed by a
validated answer. -/
theorem fieldsValid_step (p : Profile) (f q t : String) (a : Str)
    (hq : (f, q, t) ∈ questions) (hv : validateInput t a = true)
    (hI : fieldsValid p) : fieldsValid (setField p f a) := by
  obtain ⟨hI1, hI2, hI3, hI4, hI5, hI6, hI7, hI8⟩ := hI
  simp only [questions, List.mem_cons, List.not_mem_nil, or_false,
    Prod.mk.injEq] at hq
  rcases hq with ⟨rfl, -, rfl⟩ | ⟨rfl, -, rfl⟩ | ⟨rfl, -, rfl⟩ | ⟨rfl, -, rfl⟩ |
    ⟨rfl, -, rfl⟩ | ⟨rfl, -, rfl⟩ | ⟨rfl, -, rfl⟩ | ⟨rfl, -, rfl⟩
  · -- name
    have hs : setField p "name" a = { p with name := some a } := rfl
    rw [hs]
    exact ⟨fun v hv' => by cases hv'; exact hv, hI2, hI3, hI4, hI5, hI6, hI7, hI8⟩
  · -- age
    have hs : setField p "age" a = { p with age := some (pyInt a) } := rfl
    rw [hs]
    exact ⟨hI1, fun n hn => ⟨a, hv, by cases hn; rfl⟩, hI3, hI4, hI5, hI6, hI7, hI8⟩
  · -- email
    have hs : setField p "email" a = { p with email := some a } := rfl
    rw [hs]
    exact ⟨hI1, hI2, fun v hv' => by cases hv'; exact hv, hI4, hI5, hI6, hI7, hI8⟩
  · -- phone
    have hs : setField p "phone" a = { p with phone := some a } := rfl
    rw [hs]
    exact ⟨hI1, hI2, hI3, fun v hv' => by cases hv'; exact hv, hI5, hI6, hI7, hI8⟩
  · -- occupation
    have hs : setField p "occupation" a = { p with occupation := some a } := rfl
    rw [hs]
    exact ⟨hI1, hI2, hI3, hI4, fun v hv' => by cases hv'; exact hv, hI6, hI7, hI8⟩
  · -- skills
    have hs : setField p "skills" a = { p with skills := (splitCh ',' a).map strip } := rfl
    rw [hs]
    exact ⟨hI1, hI2, hI3, hI4, hI5, fun _ => ⟨a, hv, rfl⟩, hI7, hI8⟩
  · -- education
    have hs : setField p "education" a = { p with education := some a } := rfl
    rw [hs]
    exact ⟨hI1, hI2, hI3, hI4, hI5, hI6, fun v hv' => by cases hv'; exact hv, hI8⟩
  · -- location
    have hs : setField p "location" a = { p with location := some a } := rfl
    rw [hs]
    exact ⟨hI1, hI2, hI3, hI4, hI5, hI6, hI7, fun v hv' => by cases hv'; exact hv⟩

/-- A validated phone answer that contains no newline strips (hyphens and
spaces removed) to exactly ten digits: the regex alternative that tolerates
a terminal newline cannot fire. -/
theorem phone_valid_ten {line : Str} (hnl : ('\n' : Char) ∉ line)
    (hv : validateInput "phone" (strip line) = true) :
    (stripPhone (strip line)).length = 10 ∧
      (stripPhone (strip line)).all Char.isDigit = true := by
  rw [validateInput_phone_eq] at hv
  by_cases h1 : strip line = []
  · rw [if_pos h1] at hv; cases hv
  · rw [if_neg h1] at hv
    by_cases h2 : strip (strip line) = []
    · rw [if_pos h2] at hv; cases hv
    · rw [if_neg h2, strip_idem] at hv
      unfold phoneRegex at hv
      rcases Bool.or_eq_true_iff.mp hv with h | h
      · rcases Bool.and_eq_true_iff.mp h with ⟨ha, hb⟩
        exact ⟨of_decide_eq_true ha, hb⟩
      · rcases Bool.and_eq_true_iff.mp h with ⟨ha, -⟩
        rcases Bool.and_eq_true_iff.mp ha with ⟨-, hlast⟩
        have hmem : ('\n' : Char) ∈ stripPhone (strip line) :=
          List.mem_of_getLast?_eq_some (of_decide_eq_true hlast)
        have hmem2 : ('\n' : Char) ∈ strip line := by
          rcases mem_replace (s := replace (strip line) ['-'] []) hmem with h' | h'
          · rcases mem_replace h' with h'' | h''
            · exact h''
            · cases h''
          · cases h'
        exact absurd (mem_strip hmem2) hnl

/-- **C3 (counterexample).** A full text-mode session whose phone answer is
"123-456-7890" completes with the phone field stored hyphens and all: 12
characters, not a 10-digit numeric string. -/
theorem c3_phone_field_counterexample :
    (createProfile "2024-01-01T00:00:00".data
      ["Jane Doe".data, "29".data, "jane@x.com".data, "123-456-7890".data,
       "Engineer".data, "python, go".data, "BSc".data, "NYC".data]).map
      (fun r => r.1.phone) = some (some "123-456-7890".data) ∧
    ¬ ("123-456-7890".data.length = 10 ∧
       "123-456-7890".data.all Char.isDigit = true) := by
  constructor
  · decide
  · decide

/-- **C3 (amended).** For every completed text-mode session whose input
lines carry no newline character, the stored phone value, after removing
hyphens and spaces, is exactly ten digits; the stored value itself may
still contain the hyphens and spaces the user typed. -/
theorem c3_phone_field_amended (now : Str) (inputs : List Str)
    (p : Profile) (rest : List Str) (v : Str)
    (hnl : ∀ l ∈ inputs, ('\n' : Char) ∉ l)
    (hrun : createProfile now inputs = some (p, rest)) (hp : p.phone = some v) :
    (stripPhone v).length = 10 ∧ (stripPhone v).all Char.isDigit = true := by
  unfold createProfile at hrun
  cases hmid : runQuestions questions inputs initProfile with
  | none => rw [hmid] at hrun; cases hrun
  | some mid =>
    obtain ⟨p₀, rest₀⟩ := mid
    rw [hmid] at hrun
    have hp₀ : p₀.phone = some v := by
      have : p = { p₀ with created_at := some now } :=
        (congrArg Prod.fst (Option.some.inj hrun)).symm
      rw [this] at hp
      exact hp
    have hinv := runQuestionsF_invariant
      (fun pr => ∀ w, pr.phone = some w →
        (stripPhone w).length = 10 ∧ (stripPhone w).all Char.isDigit = true)
      (questions.length + inputs.length) questions inputs initProfile p₀ rest₀
      ?_ hmid ?_
    · exact hinv v hp₀
    · intro pr f q t line hq hl hval hI w hw
      by_cases hf : f = "phone"
      · subst hf
        have ht : t = "phone" := by
          simp only [questions, List.mem_cons, List.not_mem_nil, or_false,
            Prod.mk.injEq] at hq
          rcases hq with ⟨h, -, -⟩ | ⟨h, -, -⟩ | ⟨h, -, -⟩ | ⟨-, -, rfl⟩ |
            ⟨h, -, -⟩ | ⟨h, -, -⟩ | ⟨h, -, -⟩ | ⟨h, -, -⟩ <;>
            first | rfl | exact absurd h (by decide)
        subst ht
        have hw' : strip line = w := by
          have hs : (setField pr "phone" (strip line)).phone = some (strip line) := rfl
          rw [hs] at hw
          exact Option.some.inj hw
        rw [← hw']
        exact phone_valid_ten (hnl line hl) hval
      · rw [setField_phone_of_ne pr f (strip line) hf] at hw
        exact hI w hw
    · intro w hw
      cases hw

/-- Witness for C3: the concrete session of the counterexample, whose
stored phone value "123-456-7890" strips to the ten digits 5551234567
pattern. -/
theorem c3_phone_field_amended_witness :
    (stripPhone "123-456-7890".data).length = 10 ∧
      (stripPhone "123-456-7890".data).all Char.isDigit = true :=
  c3_phone_field_amended "2024-01-01T00:00:00".data
    ["Jane Doe".data, "29".data, "jane@x.com".data, "123-456-7890".data,
     "Engineer".data, "python, go".data, "BSc".data, "NYC".data]
    { name := some "Jane Doe".data, age := some 29,
      email := some "jane@x.com".data, phone := some "123-456-7890".data,
      occupation := some "Engineer".data,
      skills := ["python".data, "go".data], education := some "BSc".data,
      location := some "NYC".data,
      created_at := some "2024-01-01T00:00:00".data }
    [] "123-456-7890".data (by decide) (by decide) rfl

/-- **C7 (confirmed).** (a) An invalid answer leaves the wizard on the same
question with the record untouched, whatever further invalid answers
follow.  (b) In every completed session each populated field other than
`created_at` is backed by an answer that passed its validator, and
`created_at` carries the completion stamp.  (c) While the questions are
being processed the record holds no `created_at` value, so the stamp is set
exactly once, after all questions are answered. -/
theorem c7_wizard_invariants :
    (∀ (fuel : Nat) (f q t : String) (qs : List (String × String × String))
       (line : Str) (inputs : List Str) (p : Profile),
      validateInput t (strip line) = false →
        runQuestionsF (fuel + 1) ((f, q, t) :: qs) (line :: inputs) p =
          runQuestionsF fuel ((f, q, t) :: qs) inputs p) ∧
    (∀ (now : Str) (inputs : List Str) (out : Profile × List Str),
      createProfile now inputs = some out →
        fieldsValid out.1 ∧ out.1.created_at = some now) ∧
    (∀ (inputs : List Str) (mid : Profile × List Str),
      runQuestions questions inputs initProfile = some mid →
        mid.1.created_at = none) := by
  have hmid_created : ∀ (inputs : List Str) (mid : Profile × List Str),
      runQuestions questions inputs initProfile = some mid →
        mid.1.created_at = none := by
    intro inputs mid hrun
    obtain ⟨p₀, rest₀⟩ := mid
    exact runQuestionsF_invariant (fun pr => pr.created_at = none)
      (questions.length + inputs.length) questions inputs initProfile p₀ rest₀
      (fun p₀' f q t line _ _ _ hI => by
        show (setField p₀' f (strip line)).created_at = none
        rw [setField_created_at]; exact hI)
      hrun rfl
  refine ⟨?_, ?_, hmid_created⟩
  · intro fuel f q t qs line inputs p h
    rw [runQuestionsF, if_neg (by simp [h])]
  · intro now inputs out hout
    unfold createProfile at hout
    cases hmid : runQuestions questions inputs initProfile with
    | none => rw [hmid] at hout; cases hout
    | some mid =>
      obtain ⟨p₀, rest₀⟩ := mid
      rw [hmid] at hout
      have hco : out = ({ p₀ with created_at := some now }, rest₀) :=
        (Option.some.inj hout).symm
      have hfv : fieldsValid p₀ :=
        runQuestionsF_invariant fieldsValid
          (questions.length + inputs.length) questions inputs initProfile p₀ rest₀
          (fun p₀' f q t line hq _ hval hI => fieldsValid_step p₀' f q t
            (strip line) hq hval hI)
          hmid fieldsValid_init
      rw [hco]
      refine ⟨?_, rfl⟩
      obtain ⟨h1, h2, h3, h4, h5, h6, h7, h8⟩ := hfv
      exact ⟨h1, h2, h3, h4, h5, h6, h7, h8⟩

/-- Witness for C7: a too-short name answer ("x") is rejected and the
wizard stays on the name question without touching the record. -/
theorem c7_wizard_invariants_witness :
    runQuestionsF 2 [("name", "What is your full name?", "text")]
        ["x".data, "ab".data] initProfile =
      runQuestionsF 1 [("name", "What is your full name?", "text")]
        ["ab".data] initProfile :=
  c7_wizard_invariants.1 1 "name" "What is your full name?" "text" []
    "x".data ["ab".data] initProfile (by decide)

/-- The positional regex matcher agrees with the declarative decomposition
of the address into `local ++ "@" ++ domain ++ "." ++ tld`. -/
theorem emailMatch_iff (v : Str) : emailMatch v = true ↔ emailDecomp v := by
  constructor
  · intro h
    unfold emailMatch at h
    rw [List.any_eq_true] at h
    obtain ⟨i, hi, h⟩ := h
    rw [List.any_eq_true] at h
    obtain ⟨j, hj, h⟩ := h
    rw [List.mem_range] at hi hj
    simp only [Bool.and_eq_true, decide_eq_true_eq] at h
    obtain ⟨⟨⟨⟨⟨⟨⟨h0i, hij⟩, hjlen⟩, hat⟩, hdot⟩, hA⟩, hB⟩, hC⟩ := h
    have hvi : v[i] = '@' := by
      rw [List.getD_eq_getElem?_getD, List.getElem?_eq_getElem hi] at hat
      simpa using hat
    have hvj : v[j] = '.' := by
      rw [List.getD_eq_getElem?_getD, List.getElem?_eq_getElem hj] at hdot
      simpa using hdot
    refine ⟨v.take i, (v.drop (i + 1)).take (j - (i + 1)), v.drop (j + 1),
      ?_, ?_, ?_, ?_, hA, hB, hC⟩
    · have e2 : v.drop i = v[i] :: v.drop (i + 1) := List.drop_eq_getElem_cons hi
      have e3 : v.drop (i + 1) =
          (v.drop (i + 1)).take (j - (i + 1)) ++ (v.drop (i + 1)).drop (j - (i + 1)) :=
        (List.take_append_drop _ _).symm
      have e4 : (v.drop (i + 1)).drop (j - (i + 1)) = v.drop j := by
        rw [List.drop_drop]
        congr 1
        omega
      have e5 : v.drop j = v[j] :: v.drop (j + 1) := List.drop_eq_getElem_cons hj
      calc v = v.take i ++ v.drop i := (List.take_append_drop i v).symm
        _ = v.take i ++ '@' :: v.drop (i + 1) := by rw [e2, hvi]
        _ = v.take i ++ '@' ::
              ((v.drop (i + 1)).take (j - (i + 1)) ++ v.drop j) := by
            conv_lhs => rw [e3, e4]
        _ = v.take i ++ '@' ::
              ((v.drop (i + 1)).take (j - (i + 1)) ++ '.' :: v.drop (j + 1)) := by
            rw [e5, hvj]
    · have hlen : (v.take i).length = i := by
        rw [List.length_take]
        omega
      intro hnil
      rw [hnil] at hlen
      simp at hlen
      omega
    · have hlen : ((v.drop (i + 1)).take (j - (i + 1))).length = j - (i + 1) := by
        rw [List.length_take, List.length_drop]
        omega
      intro hnil
      rw [hnil] at hlen
      simp at hlen
      omega
    · have hlen : (v.drop (j + 1)).length = v.length - (j + 1) := List.length_drop _ _
      intro hnil
      rw [hnil] at hlen
      simp at hlen
      omega
  · intro h
    obtain ⟨A, B, C, heq, hA0, hB0, hC0, hA, hB, hC⟩ := h
    have hlen : v.length = A.length + B.length + C.length + 2 := by
      rw [heq]
      simp only [List.length_append, List.length_cons]
      omega
    unfold emailMatch
    rw [List.any_eq_true]
    refine ⟨A.length, List.mem_range.mpr (by omega), ?_⟩
    rw [List.any_eq_true]
    refine ⟨A.length + 1 + B.length, List.mem_range.mpr (by omega), ?_⟩
    have hCpos : 0 < C.length := List.length_pos.mpr hC0
    have hBpos : 0 < B.length := List.length_pos.mpr hB0
    have hApos : 0 < A.length := List.length_pos.mpr hA0
    have hdropA : v.drop (A.length + 1) = B ++ '.' :: C := by
      rw [heq, ← List.drop_drop, List.drop_left]
      rfl
    have hgetat : v.getD A.length '?' = '@' := by
      rw [heq, List.getD_eq_getElem?_getD, List.getElem?_append_right (Nat.le_refl _)]
      simp
    have hgetdot : v.getD (A.length + 1 + B.length) '?' = '.' := by
      have h1 : v.getD (A.length + 1 + B.length) '?' =
          (v.drop (A.length + 1)).getD B.length '?' := by
        rw [List.getD_eq_getElem?_getD, List.getD_eq_getElem?_getD,
          List.getElem?_drop]
      rw [h1, hdropA, List.getD_eq_getElem?_getD,
        List.getElem?_append_right (Nat.le_refl _)]
      simp
    have htake : v.take A.length = A := by
      rw [heq, List.take_left]
    have htakeB : (v.drop (A.length + 1)).take (A.length + 1 + B.length - (A.length + 1)) = B := by
      rw [hdropA]
      have h2 : A.length + 1 + B.length - (A.length + 1) = B.length := by omega
      rw [h2, List.take_left]
    have hdropAB : v.drop (A.length + 1 + B.length) = '.' :: C := by
      have h5 : v.drop (A.length + 1 + B.length) = (v.drop (A.length + 1)).drop B.length := by
        rw [List.drop_drop]
      rw [h5, hdropA, List.drop_left]
    have hdropC : v.drop (A.length + 1 + B.length + 1) = C := by
      have h6 := List.drop_drop 1 (A.length + 1 + B.length) v
      rw [← h6, hdropAB]
      rfl
    simp only [Bool.and_eq_true, decide_eq_true_eq]
    refine ⟨⟨⟨⟨⟨⟨⟨by omega, by omega⟩, by omega⟩, hgetat⟩, hgetdot⟩, ?_⟩, ?_⟩, ?_⟩
    · rw [htake]; exact hA
    · rw [htakeB]; exact hB
    · rw [hdropC]; exact hC

/-- **C4 (counterexample).** "a@b.5" passes the email validator although it
does not match the pattern the claim describes: "5" is not an alphabetic
suffix (and the validator likewise accepts hyphens, which the claimed
word/dot classes exclude, as in "a-b@c.org"). -/
theorem c4_email_validator_counterexample :
    validateInput "email" "a@b.5".data = true ∧
      emailClaimMatch "a@b.5".data = false ∧
    validateInput "email" "a-b@c.org".data = true ∧
      emailClaimMatch "a-b@c.org".data = false := by
  refine ⟨?_, ?_, ?_, ?_⟩ <;> decide

/-- **C4 (amended).** `validate('email', x)` is true exactly when the
trimmed input splits as `local@domain.tld` with word, dot or hyphen
characters on each side of a single `@` and a dot before a final suffix of
word characters (letters, digits or underscore, not necessarily
alphabetic); in particular it is true for "a.b@c.org" and false for "a@b"
and "abc". -/
theorem c4_email_validator_amended :
    (∀ x : Str, validateInput "email" x = true ↔ emailDecomp (strip x)) ∧
    validateInput "email" "a.b@c.org".data = true ∧
    validateInput "email" "a@b".data = false ∧
    validateInput "email" "abc".data = false := by
  have hnot : ¬ emailDecomp [] := by
    rintro ⟨A, B, C, heq, -, -, -, -, -, -⟩
    have hl := congrArg List.length heq
    simp [List.length_append] at hl
    omega
  refine ⟨fun x => ?_, by decide, by decide, by decide⟩
  rw [validateInput_email_eq]
  by_cases h1 : x = []
  · subst h1
    have hs : strip ([] : Str) = [] := rfl
    rw [if_pos rfl, hs]
    simp [hnot]
  · rw [if_neg h1]
    by_cases h2 : strip x = []
    · rw [if_pos h2, h2]
      simp [hnot]
    · rw [if_neg h2]
      exact emailMatch_iff (strip x)

/-- **C2 (counterexample).** The skills normalizer is not idempotent:
"a and and b" contains two overlapping " and " occurrences, only the first
is replaced, and the survivor is rewritten on the second pass, so applying
the normalizer twice changes its own output. -/
theorem c2_skills_idempotence_counterexample :
    skillsNormalize "a and and b".data = "a, and b".data ∧
    skillsNormalize (skillsNormalize "a and and b".data) = "a, , b".data ∧
    skillsNormalize (skillsNormalize "a and and b".data)
      ≠ skillsNormalize "a and and b".data := by
  refine ⟨?_, ?_, ?_⟩ <;> decide

/-- A canonical comma-list (a `", "`-join of stripped, comma-free,
lower-case pieces) that contains no surviving `" and "` or `" comma "` is a
fixed point of the skills normalizer. -/
theorem skillsNormalize_fixed (w : Str) (hlow : ∀ c ∈ w, Char.toLower c = c)
    (ps : List Str) (hne : ps ≠ []) (hnc : ∀ p ∈ ps, (',' : Char) ∉ p)
    (hsf : ∀ p ∈ ps, strip p = p) (hw : w = joinComma ps)
    (hand : containsSub w " and ".data = false)
    (hcomma : containsSub w " comma ".data = false) :
    skillsNormalize w = w := by
  have e1 : lowerStr w = w := by
    unfold lowerStr
    rw [List.map_congr_left hlow, List.map_id']
  have e2 : replace w " and ".data [',', ' '] = w := replace_eq_self hand
  have e3 : replace w " comma ".data [',', ' '] = w := replace_eq_self hcomma
  cases ps with
  | nil => exact absurd rfl hne
  | cons p₀ ps' =>
    have e4 : splitCh ',' w = p₀ :: ps'.map (fun p => ' ' :: p) := by
      rw [hw]
      exact splitCh_joinComma ps' p₀ hnc
    calc skillsNormalize w
        = joinComma ((splitCh ','
            (replace (replace (lowerStr w) " and ".data [',', ' '])
              " comma ".data [',', ' '])).map strip) := rfl
      _ = joinComma ((splitCh ',' w).map strip) := by rw [e1, e2, e3]
      _ = joinComma ((p₀ :: ps'.map (fun p => ' ' :: p)).map strip) := by rw [e4]
      _ = joinComma (p₀ :: ps') := by
          congr 1
          rw [List.map_cons, List.map_map, hsf p₀ (List.mem_cons_self _ _)]
          congr 1
          have hmap : ∀ p ∈ ps', (strip ∘ fun q => ' ' :: q) p = p := by
            intro p hp
            show strip (' ' :: p) = p
            rw [strip_cons_ws (by decide), hsf p (List.mem_cons_of_mem _ hp)]
          rw [List.map_congr_left hmap, List.map_id']
      _ = w := hw.symm

/-- **C2 (amended).** The skills normalizer is idempotent on every input
whose normalized form no longer contains `" and "` or `" comma "` as a
substring; on inputs whose normalized output still contains such a spoken
separator (only possible with overlapping occurrences, as in
"a and and b"), a second pass rewrites it again. -/
theorem c2_skills_idempotent_amended (s : Str)
    (h1 : containsSub (skillsNormalize s) " and ".data = false)
    (h2 : containsSub (skillsNormalize s) " comma ".data = false) :
    skillsNormalize (skillsNormalize s) = skillsNormalize s := by
  have ht : skillsNormalize s = joinComma ((splitCh ','
      (replace (replace (lowerStr s) " and ".data [',', ' '])
        " comma ".data [',', ' '])).map strip) := rfl
  apply skillsNormalize_fixed _ ?_
    ((splitCh ',' (replace (replace (lowerStr s) " and ".data [',', ' '])
      " comma ".data [',', ' '])).map strip) ?_ ?_ ?_ ht h1 h2
  · -- every character of the output is fixed by toLower
    intro c hc
    rw [ht] at hc
    rcases mem_joinComma hc with ⟨p, hp, hcp⟩ | hc' | hc'
    · rcases List.mem_map.mp hp with ⟨piece, hpiece, rfl⟩
      have hcu := mem_of_mem_splitCh hpiece (mem_strip hcp)
      rcases mem_replace hcu with hcu' | hcu'
      · rcases mem_replace hcu' with hcu'' | hcu''
        · rcases List.mem_map.mp hcu'' with ⟨c₀, _, rfl⟩
          exact toLower_toLower c₀
        · rcases List.mem_cons.mp hcu'' with h | h
          · subst h; decide
          · rcases List.mem_cons.mp h with h' | h'
            · subst h'; decide
            · cases h'
      · rcases List.mem_cons.mp hcu' with h | h
        · subst h; decide
        · rcases List.mem_cons.mp h with h' | h'
          · subst h'; decide
          · cases h'
    · subst hc'; decide
    · subst hc'; decide
  · simp only [ne_eq, List.map_eq_nil_iff]
    exact splitCh_ne_nil ',' _
  · intro p hp
    rcases List.mem_map.mp hp with ⟨piece, hpiece, rfl⟩
    intro hcm
    exact not_mem_of_mem_splitCh hpiece (mem_strip hcm)
  · intro p hp
    rcases List.mem_map.mp hp with ⟨piece, _, rfl⟩
    exact strip_idem piece

/-- Witness for C2: "Python and  Go, c++" normalizes to "python, go, c++",
which contains no spoken separator, so a second pass leaves it unchanged. -/
theorem c2_skills_idempotent_amended_witness :
    skillsNormalize (skillsNormalize "Python and  Go, c++".data)
      = skillsNormalize "Python and  Go, c++".data :=
  c2_skills_idempotent_amended "Python and  Go, c++".data (by decide) (by decide)
